import Mathlib

/-
Shallow embedding of the increstore repository (src/lib.rs, src/db.rs,
src/rw.rs, src/stats.rs) in Lean 4, together with theorems settling the
frozen claims about its specification.

Modelling conventions:
- the sqlite table `blobs` is a list of rows in insertion order plus the
  next rowid; machine integers (u32 ids, u64 sizes) are Nat, faithful for
  the realistic ranges where the Rust arithmetic does not overflow;
- the content-addressed object store is the list of hashes whose object
  file exists (the path objects/hh/rest is a bijective image of the hash);
- external black boxes (the canonicalizer and the hdiffz/hpatchz delta
  codec) are parameters: a trial environment gives each delta trial its
  outcome, a decode environment gives each decode step its WriteMetadata,
  exactly the data the Rust code receives back from the black box;
- Rust panics (expect / assert_eq) and Err returns are explicit result
  constructors.
-/

namespace Increstore

/-- One row of the blobs table, from struct Blob in db.rs (the display-only
time_created column is omitted). -/
structure Blob where
  id : Nat
  filename : String
  storeSize : Nat
  contentSize : Nat
  storeHash : String
  contentHash : String
  parentHash : Option String
deriving Repr, DecidableEq, Inhabited

/-- Blob::is_root from db.rs: a root has no parent hash. -/
def Blob.is_root (b : Blob) : Bool := b.parentHash.isNone

/-- Blob::is_genesis from db.rs: sqlite ROWID starts from 1. -/
def Blob.is_genesis (b : Blob) : Bool := b.id == 1

/-- WriteMetadata from rw.rs: the byte count and the serialized 256-bit
digest accumulated by the HashRW shim. -/
structure WriteMetadata where
  size : Nat
  digest : String
deriving Repr, DecidableEq

/-- WriteMetadata::blob from rw.rs: a fresh full blob whose store and
content fields both come from the observed stream. -/
def WriteMetadata.blob (m : WriteMetadata) (filename : String) : Blob :=
  { id := 0
    filename := filename
    storeSize := m.size
    contentSize := m.size
    storeHash := m.digest
    contentHash := m.digest
    parentHash := none }

/-- The blobs table: rows in insertion order plus the next rowid. -/
structure Db where
  rows : List Blob
  nextId : Nat
deriving Repr, DecidableEq

/-- db::insert: insert or ignore keyed by the unique store_hash; returns
false when a row with the same store_hash was already present. -/
def Db.insert (db : Db) (b : Blob) : Db × Bool :=
  if db.rows.any (fun r => r.storeHash == b.storeHash) then (db, false)
  else ({ rows := db.rows ++ [{ b with id := db.nextId }], nextId := db.nextId + 1 }, true)

/-- db::remove: delete from blobs where store_hash = b.store_hash. -/
def Db.remove (db : Db) (b : Blob) : Db :=
  { db with rows := db.rows.filter (fun r => r.storeHash != b.storeHash) }

/-- db::roots: rows with parent_hash null, in table order. -/
def Db.roots (db : Db) : List Blob :=
  db.rows.filter (fun r => r.parentHash.isNone)

/-- db::by_filename: rows with the given filename, in table order. -/
def Db.by_filename (db : Db) (filename : String) : List Blob :=
  db.rows.filter (fun r => r.filename == filename)

/-- db::by_content_hash: rows with the given content hash, in table order. -/
def Db.by_content_hash (db : Db) (h : String) : List Blob :=
  db.rows.filter (fun r => r.contentHash == h)

/-- The object store: the set (as a duplicate-free list) of store hashes
whose object file exists under objects/hh/rest. -/
def insertObj (objects : List String) (h : String) : List String :=
  if h ∈ objects then objects else objects ++ [h]

/-- fs::remove_file on the object of hash h: fails when the file is absent. -/
def removeObj (objects : List String) (h : String) : Option (List String) :=
  if h ∈ objects then some (objects.erase h) else none

/-- Process state: the metadata index plus the object store directory. -/
structure St where
  db : Db
  objects : List String
deriving Repr, DecidableEq

/-! ## RaceWrite (rw.rs)

The race wrapper carries the shared best-size counter, the number of bytes
written so far to this destination, and the wrapped writer. A call is
modelled by its observable effect on the destination size; the underlying
buffered writer accepts every chunk in full. -/

/-- Result of one write call through the race wrapper: `newSize` is the
number of bytes in the destination after the call returns. -/
inductive WriteOutcome where
  | ok (written : Nat) (newSize : Nat)
  | raceErr (newSize : Nat)
deriving Repr, DecidableEq

/-- RaceWrite sync io::Write::write from rw.rs: refuse with the race error
before writing when the counter is positive and below size + buf.len(). -/
def raceWrite (race size bufLen : Nat) : WriteOutcome :=
  if 0 < race ∧ race < size + bufLen then .raceErr size
  else .ok bufLen (size + bufLen)

/-- RaceWrite tokio AsyncWrite::poll_write from rw.rs: forward the chunk to
the underlying writer first, add it to size, then load the counter and
return the race error when the counter is positive and not above size. -/
def racePollWrite (race size bufLen : Nat) : WriteOutcome :=
  let size' := size + bufLen
  if race = 0 ∨ size' < race then .ok bufLen size' else .raceErr size'

/-- Outcome of a delta trial's whole write sequence. -/
inductive RunOutcome where
  | completed (size : Nat)
  | raced (size : Nat)
deriving Repr, DecidableEq

/-- A delta trial's destination pipeline: poll_write each chunk in turn
against a fixed counter value, stopping at the first race error. -/
def runPollWrites (race : Nat) : Nat → List Nat → RunOutcome
  | size, [] => .completed size
  | size, b :: bs =>
    match racePollWrite race size b with
    | .ok _ size' => runPollWrites race size' bs
    | .raceErr size' => .raced size'

/-- Largest chunk of a write sequence. -/
def listMax : List Nat → Nat
  | [] => 0
  | b :: bs => Nat.max b (listMax bs)

/-! ## Stats (stats.rs)

The graph bookkeeping computed by Stats::from_blobs. GraphNode mirrors the
struct of the same name; the Vec of nodes is a List indexed in blob order.
The recursive calculate_depth takes a fuel argument: on the acyclic parent
graphs the Rust recursion terminates on, fuel len+1 is never exhausted. -/

/-- GraphNode from stats.rs. -/
structure GraphNode where
  depth : Nat := 0
  childCount : Nat := 0
  parentIdx : Option Nat := none
  childrenIndices : List Nat := []
  aliasIndices : List Nat := []
deriving Repr, DecidableEq, Inhabited

/-- Update the node at position i (indices are always in range in the
source; out of range is the identity). -/
def updAt (i : Nat) (f : GraphNode → GraphNode) : List GraphNode → List GraphNode
  | [] => []
  | n :: ns =>
    match i with
    | 0 => f n :: ns
    | j + 1 => n :: updAt j f ns

/-- Read the node at position i. -/
def getNode (ds : List GraphNode) (i : Nat) : GraphNode := ds.getD i default

/-- The body of calculate_depth's loop over all other blobs, from stats.rs:
record aliases on content-hash equality, then for blobs whose content hash
is this blob's parent hash, recurse when their depth is uncomputed, track
the parent of minimal depth, and register this blob as their child.
`recur` is the recursive call of calculate_depth at one fuel less. -/
def calcDepthStep (blobs : List Blob) (idx : Nat) (blob : Blob) (ph : String)
    (recur : Nat → List GraphNode → List GraphNode)
    (acc : List GraphNode × Nat × Nat) (otherIdx : Nat) : List GraphNode × Nat × Nat :=
  let (ds, minD, minI) := acc
  let other := blobs.getD otherIdx default
  let ds :=
    if other.contentHash == blob.contentHash then
      updAt otherIdx (fun n => { n with aliasIndices := n.aliasIndices ++ [idx] })
        (updAt idx (fun n => { n with aliasIndices := n.aliasIndices ++ [otherIdx] }) ds)
    else ds
  if otherIdx == idx then (ds, minD, minI)
  else if other.contentHash != ph then (ds, minD, minI)
  else
    let ds := if (getNode ds otherIdx).depth == 0 then recur otherIdx ds else ds
    let d := (getNode ds otherIdx).depth
    let (minD, minI) := if d < minD then (d, otherIdx) else (minD, minI)
    let ds := updAt otherIdx (fun n => { n with childrenIndices := n.childrenIndices ++ [idx] }) ds
    (ds, minD, minI)

/-- calculate_depth from stats.rs, with fuel bounding the recursion depth. -/
def calcDepth (blobs : List Blob) : Nat → Nat → List GraphNode → List GraphNode
  | 0, _, ds => ds
  | fuel + 1, idx, ds =>
    match (blobs.getD idx default).parentHash with
    | none => updAt idx (fun n => { n with depth := 1 }) ds
    | some ph =>
      let blob := blobs.getD idx default
      let (ds, minD, minI) :=
        (List.range blobs.length).foldl
          (calcDepthStep blobs idx blob ph (calcDepth blobs fuel)) (ds, blobs.length, 0)
      updAt idx (fun n => { n with depth := minD + 1, parentIdx := some minI }) ds

/-- Stats::add_child_count from stats.rs: bump this node, then recurse into
the parent, or, at a root, into every alias. Fuel bounds the recursion. -/
def addChildCount : Nat → Nat → List GraphNode → List GraphNode
  | 0, _, ds => ds
  | fuel + 1, idx, ds =>
    let ds := updAt idx (fun n => { n with childCount := n.childCount + 1 }) ds
    match (getNode ds idx).parentIdx with
    | some p => addChildCount fuel p ds
    | none => (getNode ds idx).aliasIndices.foldl (fun ds a => addChildCount fuel a ds) ds

/-- Stats::from_blobs from stats.rs: run calculate_depth for every index in
order, then add_child_count for every index in order. -/
def fromBlobs (blobs : List Blob) : List GraphNode :=
  let len := blobs.length
  let ds := (List.range len).foldl (fun ds i => calcDepth blobs (len + 1) i ds)
    (List.replicate len default)
  (List.range len).foldl (fun ds i => addChildCount ((len + 1) * (len + 1)) i ds) ds

/-- Stats::aliases from stats.rs. -/
def aliasesOf (ds : List GraphNode) (idx : Nat) : List Nat :=
  (getNode ds idx).aliasIndices

/-- Stats::children from stats.rs: when include_root is false, children
that have a root alias are excluded. -/
def childrenOf (blobs : List Blob) (ds : List GraphNode) (idx : Nat) (includeRoot : Bool) :
    List Nat :=
  (getNode ds idx).childrenIndices.filter (fun c =>
    includeRoot || !((aliasesOf ds c).any (fun a => (blobs.getD a default).is_root)))

/-- Iterator::max of a list of indices, with a default for the empty case,
matching children.max().unwrap_or(root_idx). -/
def listMaxD : List Nat → Nat → Nat
  | [], d => d
  | x :: xs, _ => xs.foldl Nat.max x

/-- Stats::root_age from stats.rs. -/
def root_age (blobs : List Blob) (ds : List GraphNode) (rootIdx : Nat) : Nat :=
  blobs.length - listMaxD (childrenOf blobs ds rootIdx true) rootIdx

/-- u64::max_value(). -/
def U64MAX : Nat := 18446744073709551615

/-- Stats::root_score from stats.rs: u64::MAX for a root with no alias,
else alias.store_size * (100 - min(age, 100)) / 100. -/
def root_score (blobs : List Blob) (ds : List GraphNode) (rootIdx : Nat) : Nat :=
  match (aliasesOf ds rootIdx).getLast? with
  | none => U64MAX
  | some aIdx =>
    let aliasBlob := blobs.getD aIdx default
    let maxUnusedAge := 100
    let age := Nat.min (root_age blobs ds rootIdx) maxUnusedAge
    aliasBlob.storeSize * (maxUnusedAge - age) / maxUnusedAge

/-- RootBlob from stats.rs. -/
structure RootBlob where
  blob : Blob
  aliasBlob : Blob
  score : Nat
deriving Repr, DecidableEq

/-- Stats::root_candidates from stats.rs: the roots that have an alias, in
blob order, each with its last-pushed alias and its score. -/
def root_candidates (blobs : List Blob) (ds : List GraphNode) : List RootBlob :=
  (List.range blobs.length).filterMap (fun i =>
    let b := blobs.getD i default
    if b.parentHash.isSome then none
    else
      match (aliasesOf ds i).getLast? with
      | none => none
      | some aIdx => some ⟨b, blobs.getD aIdx default, root_score blobs ds i⟩)

/-! ## Cleanup (lib.rs) -/

/-- max_root_blobs from lib.rs. -/
def maxRootBlobs : Nat := 5

/-- Stable insertion of one element into a key-sorted list: the new element
goes before every element of equal or larger key that stood later in the
original list, matching the stability of Vec::sort_by_key. -/
def sortInsert {A : Type} (key : A → Nat) (x : A) : List A → List A
  | [] => [x]
  | y :: ys => if key y < key x then y :: sortInsert key x ys else x :: y :: ys

/-- Vec::sort_by_key: stable sort, ascending by key. -/
def sortByKey {A : Type} (key : A → Nat) : List A → List A
  | [] => []
  | x :: xs => sortInsert key x (sortByKey key xs)

/-- Result of cleanup: Ok, or the Err of a failed fs::remove_file, with the
state when the error is returned. -/
inductive CleanupResult where
  | ok (st : St)
  | err (st : St)
deriving Repr, DecidableEq

/-- The eviction loop of cleanup from lib.rs: for each surplus candidate,
delete its metadata row and then its object file; a missing object file is
a fatal error returned at that point. -/
def cleanupGo : List RootBlob → St → CleanupResult
  | [], st => .ok st
  | rb :: rest, st =>
    let db := st.db.remove rb.blob
    match removeObj st.objects rb.blob.contentHash with
    | none => .err { st with db := db }
    | some objects => cleanupGo rest { db := db, objects := objects }

/-- cleanup from lib.rs: score the candidate roots, sort them by descending
score (key u64::MAX - score, ascending, stable), keep the first
max_root_blobs, and evict the rest. -/
def cleanup (st : St) : CleanupResult :=
  let blobs := st.db.rows
  let ds := fromBlobs blobs
  let cands := root_candidates blobs ds
  let sorted := sortByKey (fun rb => U64MAX - rb.score) cands
  cleanupGo (sorted.drop maxRootBlobs) st

/-! ## Push (lib.rs)

External black boxes are parameters: the canonicalizer's result for the
input file is a WriteMetadata, and each delta trial's outcome (indexed by
the position of its source root in db::roots order) is a TrialResult, the
data append_delta gets back from the codec pipeline. -/

/-- What one append_delta call produces: a hard io error (propagated), the
race cancellation (Ok(None), the trial is dropped), or the written delta's
WriteMetadata (Ok(Some)). -/
inductive TrialResult where
  | err
  | raced
  | done (dstMeta : WriteMetadata)
deriving Repr, DecidableEq

/-- Whether a trial outcome is the hard-error case. -/
def TrialResult.isErr : TrialResult → Bool
  | .err => true
  | _ => false

/-- The delta blob built inside append_delta from lib.rs: dst_meta.blob
with content size and hash taken from the input blob and parent_hash set
to the source root's content hash. -/
def mkDeltaBlob (input src : Blob) (m : WriteMetadata) : Blob :=
  { m.blob input.filename with
    contentSize := input.contentSize
    contentHash := input.contentHash
    parentHash := some src.contentHash }

/-- update_blob from lib.rs: persist the temp file into the object store
under the blob's store hash, then db::insert the row. -/
def update_blob (st : St) (blob : Blob) : St × Bool :=
  let objects := insertObj st.objects blob.storeHash
  let (db, inserted) := st.db.insert blob
  (⟨db, objects⟩, inserted)

/-- The finished delta trials of a push, paired with their source roots, in
db::roots order (rayon's indexed collect preserves order); raced-out and
the genesis-absent trials contribute nothing. -/
def trialPairs (input : Blob) (trials : Nat → TrialResult) :
    List Blob → Nat → List (Blob × Blob)
  | [], _ => []
  | r :: rs, i =>
    match trials i with
    | .done m => (r, mkDeltaBlob input r m) :: trialPairs input trials rs (i + 1)
    | _ => trialPairs input trials rs (i + 1)

/-- Result of push: Ok, a propagated Err, or a Rust panic, each with the
process state at that point. -/
inductive PushResult where
  | ok (st : St)
  | ioError (st : St)
  | panicked (msg : String) (st : St)
deriving Repr, DecidableEq

/-- The process state carried by a push result. -/
def PushResult.state : PushResult → St
  | .ok st => st
  | .ioError st => st
  | .panicked _ st => st

/-- push from lib.rs. Read the roots, append the full blob (the object
file is persisted by store_blob before db::insert decides whether the
content is new); on a duplicate return Ok at once; with no roots this is
the genesis, return Ok. Otherwise run one delta trial per root: any hard
trial error propagates as Err; the finished trials are sorted stably by
store_size and the first is taken (expect panics when there is none); the
winner is stored and inserted by update_blob, and cleanup ends the push. -/
def push (st : St) (filename : String) (meta : WriteMetadata)
    (trials : Nat → TrialResult) : PushResult :=
  let rootBlobs := st.db.roots
  let inputBlob := meta.blob filename
  let objects1 := insertObj st.objects inputBlob.storeHash
  let (db1, inserted) := st.db.insert inputBlob
  let st1 : St := ⟨db1, objects1⟩
  if !inserted then .ok st1
  else if rootBlobs.isEmpty then .ok st1
  else if (List.range rootBlobs.length).any (fun i => (trials i).isErr) then .ioError st1
  else
    let pairs := trialPairs inputBlob trials rootBlobs 0
    let linkBlobs := pairs.map Prod.snd
    match (sortByKey (fun b : Blob => b.storeSize) linkBlobs).head? with
    | none => .panicked "no blobs" st1
    | some link =>
      let (st2, _inserted2) := update_blob st1 link
      match cleanup st2 with
      | .ok st3 => .ok st3
      | .err stE => .ioError stE

/-! ## Get (lib.rs)

The decode environment `dec` gives the WriteMetadata that the step-i
delta::delta_async decode call hands back for its destination stream. -/

/-- Result of the parent-chain walk of get. -/
inductive WalkResult where
  | found (visited : List Blob) (root : Blob)
  | missingParent
  | fuelOut
deriving Repr, DecidableEq

/-- The while let Some(parent_hash) loop of get from lib.rs: push the
current blob, resolve the parent by content hash taking the last row
(Vec::pop), and panic (expect) when there is none. Fuel bounds the loop;
on the acyclic graphs the Rust loop terminates on it is never exhausted. -/
def walkPath (db : Db) : Nat → Blob → List Blob → WalkResult
  | 0, _, _ => .fuelOut
  | fuel + 1, blob, acc =>
    match blob.parentHash with
    | none => .found acc blob
    | some ph =>
      match (db.by_content_hash ph).getLast? with
      | none => .missingParent
      | some parent => walkPath db fuel parent (acc ++ [blob])

/-- Result of the decode loop of get. -/
inductive DecodeResult where
  | done (last : Option WriteMetadata)
  | assertFail (i : Nat)
deriving Repr, DecidableEq

/-- The decode loop of get from lib.rs: decode each delta in root-to-leaf
order and assert_eq the decoded digest against the recorded content hash;
the decoded length is not compared. `last` is the metadata of the file
sitting in old_tmpfile after the rotation. -/
def decodeLoop (dec : Nat → WriteMetadata) : Nat → Option WriteMetadata → List Blob →
    DecodeResult
  | _, last, [] => .done last
  | i, _, b :: bs =>
    let m := dec i
    if m.digest == b.contentHash then decodeLoop dec (i + 1) (some m) bs
    else .assertFail i

/-- Result of get. okUnknown is the early Ok(()) return for an unknown
filename (after eprintln); okDone carries the metadata of the persisted
output file, none when the decode path was empty and the fresh temp file
was persisted as is. -/
inductive GetResult where
  | okUnknown
  | okDryRun (path : List Blob)
  | okDone (last : Option WriteMetadata)
  | panicNoParent
  | diverged
  | panicAssert (i : Nat)
deriving Repr, DecidableEq

/-- get from lib.rs: look up the filename (Vec::pop takes the last, most
recent row), return Ok early when nothing matches, walk the parent chain,
reverse it into root-to-leaf order, print it on dry_run, else run the
decode loop and persist the final temp file. -/
def get (st : St) (filename : String) (dryRun : Bool) (dec : Nat → WriteMetadata) :
    GetResult :=
  match (st.db.by_filename filename).getLast? with
  | none => .okUnknown
  | some b0 =>
    match walkPath st.db (st.db.rows.length + 1) b0 [] with
    | .missingParent => .panicNoParent
    | .fuelOut => .diverged
    | .found visited _root =>
      let path := visited.reverse
      if dryRun then .okDryRun path
      else
        match decodeLoop dec 0 none path with
        | .done last => .okDone last
        | .assertFail i => .panicAssert i

/-- The root-to-leaf decode path that a non-dry-run get would decode. -/
def decodePath (st : St) (filename : String) : Option (List Blob) :=
  match (st.db.by_filename filename).getLast? with
  | none => none
  | some b0 =>
    match walkPath st.db (st.db.rows.length + 1) b0 [] with
    | .found visited _ => some visited.reverse
    | _ => none

/-! ## Derived notions and concrete fixtures used by the theorems -/

/-- Whether a push returned Ok. -/
def PushResult.isOk : PushResult → Bool
  | .ok _ => true
  | _ => false

/-- The state carried by a cleanup result. -/
def CleanupResult.state : CleanupResult → St
  | .ok st => st
  | .err st => st

/-- Invariant I3 of the spec: every root row stores exactly its content
(store hash and size equal content hash and size). -/
def I3 (st : St) : Prop :=
  ∀ r ∈ st.db.rows, r.parentHash = none →
    r.storeHash = r.contentHash ∧ r.storeSize = r.contentSize

/-- A genesis-only state: one root blob, its object present. -/
def genesisBlob : Blob :=
  { id := 1, filename := "v1", storeSize := 10, contentSize := 10,
    storeHash := "hg", contentHash := "hg", parentHash := none }

/-- State after the genesis push: one root, its object on disk. -/
def st1root : St := ⟨⟨[genesisBlob], 2⟩, ["hg"]⟩

/-- The empty store. -/
def emptySt : St := ⟨⟨[], 1⟩, []⟩

/-- A second-version push whose single delta trial finishes with a 3-byte
patch named d2. -/
def c1Res : PushResult :=
  push st1root "v2" ⟨10, "h2"⟩ (fun _ => .done ⟨3, "d2"⟩)

/-- The full blob row that the push of v2 inserts at [FULL_INSERTED]. -/
def c1FullRow : Blob :=
  { id := 2, filename := "v2", storeSize := 10, contentSize := 10,
    storeHash := "h2", contentHash := "h2", parentHash := none }

/-- A delta of v2 against the genesis, as a stored row. -/
def c4Delta : Blob :=
  { id := 2, filename := "v2", storeSize := 3, contentSize := 10,
    storeHash := "d2", contentHash := "h2", parentHash := some "hg" }

/-- State with the genesis root and one delta on top of it. -/
def c4St : St := ⟨⟨[genesisBlob, c4Delta], 3⟩, ["hg", "d2"]⟩

/-- A decode environment whose every step hands back digest h2 with length
999, different from the recorded content_size 10 of c4Delta. -/
def c4Dec : Nat → WriteMetadata := fun _ => ⟨999, "h2"⟩

/-- Eight pairwise distinct roots, none of which has an alias. -/
def c8Rows : List Blob :=
  [ { id := 1, filename := "r1", storeSize := 10, contentSize := 10,
      storeHash := "a1", contentHash := "a1", parentHash := none },
    { id := 2, filename := "r2", storeSize := 10, contentSize := 10,
      storeHash := "a2", contentHash := "a2", parentHash := none },
    { id := 3, filename := "r3", storeSize := 10, contentSize := 10,
      storeHash := "a3", contentHash := "a3", parentHash := none },
    { id := 4, filename := "r4", storeSize := 10, contentSize := 10,
      storeHash := "a4", contentHash := "a4", parentHash := none },
    { id := 5, filename := "r5", storeSize := 10, contentSize := 10,
      storeHash := "a5", contentHash := "a5", parentHash := none },
    { id := 6, filename := "r6", storeSize := 10, contentSize := 10,
      storeHash := "a6", contentHash := "a6", parentHash := none },
    { id := 7, filename := "r7", storeSize := 10, contentSize := 10,
      storeHash := "a7", contentHash := "a7", parentHash := none },
    { id := 8, filename := "r8", storeSize := 10, contentSize := 10,
      storeHash := "a8", contentHash := "a8", parentHash := none } ]

/-- A store holding the eight alias-free roots; it satisfies the data-model
invariants I1 to I6 of the spec (unique store hashes, no parent edges, all
objects present, one genesis). -/
def c8St : St :=
  ⟨⟨c8Rows, 9⟩, ["a1", "a2", "a3", "a4", "a5", "a6", "a7", "a8"]⟩

/-! ## Shared lemmas -/

/-- insertObj preserves membership. -/
theorem mem_insertObj (objects : List String) (h x : String) (hx : x ∈ objects) :
    x ∈ insertObj objects h := by
  unfold insertObj
  split
  · exact hx
  · exact List.mem_append_left _ hx

/-- Rows after db::insert: either unchanged or the new row appended. -/
theorem db_insert_rows (db : Db) (b : Blob) :
    (db.insert b).1.rows = db.rows ∨
      (db.insert b).1.rows = db.rows ++ [{ b with id := db.nextId }] := by
  unfold Db.insert
  split
  · exact Or.inl rfl
  · exact Or.inr rfl

/-- Membership in rows survives db::insert. -/
theorem mem_db_insert (db : Db) (b r : Blob) (hr : r ∈ db.rows) :
    r ∈ (db.insert b).1.rows := by
  rcases db_insert_rows db b with h | h <;> rw [h]
  · exact hr
  · exact List.mem_append_left _ hr

/-- Every row of the state a cleanup eviction loop ends in (Ok or Err) was
a row of the state it started from. -/
theorem cleanupGo_rows_subset (l : List RootBlob) (st : St) (r : Blob)
    (hr : r ∈ (cleanupGo l st).state.db.rows) : r ∈ st.db.rows := by
  induction l generalizing st with
  | nil => exact hr
  | cons rb rest ih =>
    unfold cleanupGo at hr
    revert hr
    split
    · intro hr
      simp only [CleanupResult.state, Db.remove] at hr
      exact List.mem_of_mem_filter hr
    · intro hr
      have hmem := ih _ hr
      simp only [Db.remove] at hmem
      exact List.mem_of_mem_filter hmem

/-- A push where every trial against the given roots raced out produces no
finished pair. -/
theorem trialPairs_all_raced (input : Blob) (trials : Nat → TrialResult)
    (rs : List Blob) (i0 : Nat)
    (h : ∀ j, j < rs.length → trials (i0 + j) = .raced) :
    trialPairs input trials rs i0 = [] := by
  induction rs generalizing i0 with
  | nil => rfl
  | cons r rest ih =>
    have h0 : trials i0 = .raced := by simpa using h 0 (by simp)
    unfold trialPairs
    rw [h0]
    exact ih (i0 + 1) (fun j hj => by
      have := h (j + 1) (by simpa using Nat.succ_lt_succ hj)
      simpa [Nat.add_assoc, Nat.add_comm 1 j] using this)

/-- Elements of a stable insertion come from the inserted element or the
original list. -/
theorem mem_of_mem_sortInsert {A : Type} (key : A → Nat) (x y : A) (l : List A)
    (h : y ∈ sortInsert key x l) : y = x ∨ y ∈ l := by
  induction l with
  | nil => simpa [sortInsert] using h
  | cons z zs ih =>
    unfold sortInsert at h
    split at h
    · rcases List.mem_cons.mp h with h1 | h1
      · exact Or.inr (by simp [h1])
      · rcases ih h1 with h2 | h2
        · exact Or.inl h2
        · exact Or.inr (List.mem_cons_of_mem _ h2)
    · rcases List.mem_cons.mp h with h1 | h1
      · exact Or.inl h1
      · exact Or.inr h1

/-- Elements of the stable sort come from the original list. -/
theorem mem_of_mem_sortByKey {A : Type} (key : A → Nat) (x : A) (l : List A)
    (h : x ∈ sortByKey key l) : x ∈ l := by
  induction l with
  | nil => simp [sortByKey] at h
  | cons z zs ih =>
    unfold sortByKey at h
    rcases mem_of_mem_sortInsert key z x _ h with h1 | h1
    · simp [h1]
    · exact List.mem_cons_of_mem _ (ih h1)

/-- Every finished pair of a push carries the delta blob built by
append_delta from its source root. -/
theorem trialPairs_snd (input : Blob) (trials : Nat → TrialResult) :
    ∀ (rs : List Blob) (i : Nat) (p : Blob × Blob), p ∈ trialPairs input trials rs i →
      ∃ m, p.2 = mkDeltaBlob input p.1 m := by
  intro rs
  induction rs with
  | nil => intro i p h; cases h
  | cons r rest ih =>
    intro i p h
    cases htr : trials i with
    | err =>
      simp only [trialPairs, htr] at h
      exact ih _ _ h
    | raced =>
      simp only [trialPairs, htr] at h
      exact ih _ _ h
    | done m =>
      simp only [trialPairs, htr] at h
      rcases List.mem_cons.mp h with h1 | h1
      · subst h1; exact ⟨m, rfl⟩
      · exact ih _ _ h1

/-- db::insert preserves I3 when the inserted blob satisfies it as a root. -/
theorem I3_db_insert (db : Db) (b : Blob) (objs objs2 : List String)
    (hb : b.parentHash = none → b.storeHash = b.contentHash ∧ b.storeSize = b.contentSize)
    (h : I3 ⟨db, objs⟩) : I3 ⟨(db.insert b).1, objs2⟩ := by
  intro r hr hroot
  rcases db_insert_rows db b with he | he
  · rw [he] at hr
    exact h r hr hroot
  · rw [he] at hr
    rcases List.mem_append.mp hr with hm | hm
    · exact h r hm hroot
    · have hrb : r = { b with id := db.nextId } := by simpa using hm
      subst hrb
      exact hb hroot

/-- cleanup preserves I3: it only removes rows. -/
theorem I3_cleanup (st : St) (h : I3 st) : I3 (cleanup st).state := by
  intro r hr hroot
  exact h r (cleanupGo_rows_subset _ _ _ hr) hroot

/-- When the decode loop of get completes, every decoded digest matched the
recorded content hash of its delta. -/
theorem decodeLoop_done (dec : Nat → WriteMetadata) :
    ∀ (bs : List Blob) (j : Nat) (last0 last : Option WriteMetadata),
      decodeLoop dec j last0 bs = .done last →
      ∀ k b, bs.get? k = some b → (dec (j + k)).digest = b.contentHash := by
  intro bs
  induction bs with
  | nil => intro j l0 l h k b hk; cases hk
  | cons x xs ih =>
    intro j l0 l h k b hk
    cases hB : (dec j).digest == x.contentHash with
    | false => simp [decodeLoop, hB] at h
    | true =>
      simp only [decodeLoop, hB, if_true] at h
      cases k with
      | zero =>
        cases hk
        simpa using (beq_iff_eq.mp hB)
      | succ k2 =>
        have := ih (j + 1) (some (dec j)) l h k2 b (by simpa using hk)
        rw [show j + (k2 + 1) = j + 1 + k2 by omega]
        exact this

/-- When the decode loop of get fails its assert, the failing step is the
first digest mismatch on the path, and every earlier step matched. -/
theorem decodeLoop_assertFail (dec : Nat → WriteMetadata) :
    ∀ (bs : List Blob) (j : Nat) (last0 : Option WriteMetadata) (i : Nat),
      decodeLoop dec j last0 bs = .assertFail i →
      ∃ k b, i = j + k ∧ bs.get? k = some b ∧ (dec i).digest ≠ b.contentHash ∧
        ∀ k2 b2, k2 < k → bs.get? k2 = some b2 → (dec (j + k2)).digest = b2.contentHash := by
  intro bs
  induction bs with
  | nil => intro j l0 i h; simp [decodeLoop] at h
  | cons x xs ih =>
    intro j l0 i h
    cases hB : (dec j).digest == x.contentHash with
    | false =>
      simp only [decodeLoop, hB, Bool.false_eq_true, if_false, DecodeResult.assertFail.injEq] at h
      subst h
      refine ⟨0, x, by omega, rfl, ?_, ?_⟩
      · exact beq_eq_false_iff_ne.mp hB
      · intro k2 b2 hk2 _
        omega
    | true =>
      simp only [decodeLoop, hB, if_true] at h
      rcases ih (j + 1) (some (dec j)) i h with ⟨k, b, hik, hget, hne, hprev⟩
      refine ⟨k + 1, b, by omega, by simpa using hget, hne, ?_⟩
      intro k2 b2 hk2 hget2
      cases k2 with
      | zero =>
        cases hget2
        simpa using (beq_iff_eq.mp hB)
      | succ k3 =>
        have := hprev k3 b2 (by omega) (by simpa using hget2)
        rw [show j + (k3 + 1) = j + 1 + k3 by omega]
        exact this

/-- A stable insertion is never empty. -/
theorem sortInsert_ne_nil {A : Type} (key : A → Nat) (x : A) (l : List A) :
    sortInsert key x l ≠ [] := by
  cases l with
  | nil => simp [sortInsert]
  | cons y ys =>
    unfold sortInsert
    split <;> simp

/-- The stable sort of a non-empty list is non-empty. -/
theorem sortByKey_eq_nil {A : Type} (key : A → Nat) (l : List A)
    (h : sortByKey key l = []) : l = [] := by
  cases l with
  | nil => rfl
  | cons x xs => exact absurd h (sortInsert_ne_nil key x _)

/-- The head of the stable sort is the first minimum of the original list:
it splits the list, has minimal key, and every element standing before it
in the original list has a strictly larger key. -/
theorem sortByKey_head_firstMin {A : Type} (key : A → Nat) :
    ∀ (l : List A) (w : A), (sortByKey key l).head? = some w →
      ∃ l1 l2, l = l1 ++ w :: l2 ∧ (∀ x ∈ l, key w ≤ key x) ∧ ∀ x ∈ l1, key w < key x := by
  intro l
  induction l with
  | nil => intro w h; cases h
  | cons x xs ih =>
    intro w h
    cases hs : sortByKey key xs with
    | nil =>
      have hxs : xs = [] := sortByKey_eq_nil key xs hs
      subst hxs
      simp only [sortByKey, sortInsert, List.head?_cons] at h
      cases h
      exact ⟨[], [], rfl, by simp, by simp⟩
    | cons y ys =>
      rw [show sortByKey key (x :: xs) = sortInsert key x (sortByKey key xs) from rfl,
        hs] at h
      by_cases hlt : key y < key x
      · rw [show sortInsert key x (y :: ys) =
          if key y < key x then y :: sortInsert key x ys else x :: y :: ys from rfl,
          if_pos hlt, List.head?_cons] at h
        cases h
        rcases ih w (by rw [hs]; rfl) with ⟨xs1, xs2, hsplit, hmin, hstrict⟩
        refine ⟨x :: xs1, xs2, ?_, ?_, ?_⟩
        · rw [hsplit]
          rfl
        · intro z hz
          rcases List.mem_cons.mp hz with rfl | hz2
          · exact Nat.le_of_lt hlt
          · exact hmin z hz2
        · intro z hz
          rcases List.mem_cons.mp hz with rfl | hz2
          · exact hlt
          · exact hstrict z hz2
      · rw [show sortInsert key x (y :: ys) =
          if key y < key x then y :: sortInsert key x ys else x :: y :: ys from rfl,
          if_neg hlt, List.head?_cons] at h
        cases h
        refine ⟨[], xs, rfl, ?_, by simp⟩
        intro z hz
        rcases List.mem_cons.mp hz with rfl | hz2
        · exact Nat.le_refl _
        · rcases ih y (by rw [hs]; rfl) with ⟨xs1, xs2, hsplit, hmin, hstrict⟩
          exact Nat.le_trans (Nat.le_of_not_lt hlt) (hmin z hz2)

/-- Splitting a mapped list of second components lifts to a split of the
pair list. -/
theorem map_snd_split {A B : Type} :
    ∀ (pl : List (A × B)) (l1 : List B) (w : B) (l2 : List B),
      pl.map Prod.snd = l1 ++ w :: l2 →
      ∃ pl1 p pl2, pl = pl1 ++ p :: pl2 ∧ Prod.snd p = w ∧
        pl1.map Prod.snd = l1 ∧ pl2.map Prod.snd = l2 := by
  intro pl
  induction pl with
  | nil =>
    intro l1 w l2 h
    exact absurd h (by cases l1 <;> simp)
  | cons p ps ih =>
    intro l1 w l2 h
    cases l1 with
    | nil =>
      simp only [List.map_cons, List.nil_append, List.cons.injEq] at h
      exact ⟨[], p, ps, by simp, h.1, rfl, h.2⟩
    | cons a l1' =>
      simp only [List.map_cons, List.cons_append, List.cons.injEq] at h
      rcases ih l1' w l2 h.2 with ⟨pl1, q, pl2, hsplit, hq, hm1, hm2⟩
      refine ⟨p :: pl1, q, pl2, by rw [hsplit]; rfl, hq, ?_, hm2⟩
      simp [hm1, h.1]

/-- The source roots of the finished pairs form a sublist of the roots. -/
theorem trialPairs_fst_sublist (input : Blob) (trials : Nat → TrialResult) :
    ∀ (rs : List Blob) (i : Nat),
      ((trialPairs input trials rs i).map Prod.fst).Sublist rs := by
  intro rs
  induction rs with
  | nil => intro i; simp [trialPairs]
  | cons r rest ih =>
    intro i
    cases htr : trials i with
    | err =>
      simp only [trialPairs, htr]
      exact List.Sublist.cons r (ih (i + 1))
    | raced =>
      simp only [trialPairs, htr]
      exact List.Sublist.cons r (ih (i + 1))
    | done m =>
      simp only [trialPairs, htr, List.map_cons]
      exact List.Sublist.cons₂ r (ih (i + 1))

/-- The inserted element is in the stable insertion. -/
theorem mem_sortInsert_self {A : Type} (key : A → Nat) (x : A) (l : List A) :
    x ∈ sortInsert key x l := by
  induction l with
  | nil => simp [sortInsert]
  | cons y ys ih =>
    unfold sortInsert
    split
    · exact List.mem_cons_of_mem _ ih
    · exact List.mem_cons_self _ _

/-- Stable insertion preserves membership. -/
theorem mem_sortInsert_of_mem {A : Type} (key : A → Nat) (x y : A) (l : List A)
    (h : y ∈ l) : y ∈ sortInsert key x l := by
  induction l with
  | nil => cases h
  | cons z zs ih =>
    unfold sortInsert
    rcases List.mem_cons.mp h with rfl | h2
    · split
      · exact List.mem_cons_self _ _
      · exact List.mem_cons_of_mem _ (List.mem_cons_self _ _)
    · split
      · exact List.mem_cons_of_mem _ (ih h2)
      · exact List.mem_cons_of_mem _ (List.mem_cons_of_mem _ h2)

/-- The stable sort preserves membership. -/
theorem mem_sortByKey_of_mem {A : Type} (key : A → Nat) (x : A) (l : List A)
    (h : x ∈ l) : x ∈ sortByKey key l := by
  induction l with
  | nil => cases h
  | cons y ys ih =>
    unfold sortByKey
    rcases List.mem_cons.mp h with rfl | h2
    · exact mem_sortInsert_self key x _
    · exact mem_sortInsert_of_mem key y x _ (ih h2)

/-- A successful cleanup eviction loop leaves exactly the rows whose store
hash is none of the evicted candidates. -/
theorem cleanupGo_ok_rows : ∀ (l : List RootBlob) (st st2 : St),
    cleanupGo l st = .ok st2 →
    st2.db.rows = st.db.rows.filter
      (fun r => l.all (fun rb => r.storeHash != rb.blob.storeHash)) := by
  intro l
  induction l with
  | nil =>
    intro st st2 h
    cases h
    simp
  | cons rb rest ih =>
    intro st st2 h
    cases hro : removeObj st.objects rb.blob.contentHash with
    | none =>
      simp only [cleanupGo, hro] at h
      cases h
    | some objs =>
      simp only [cleanupGo, hro] at h
      have hrec := ih _ _ h
      rw [hrec]
      simp only [Db.remove, List.filter_filter]
      congr 1
      funext a
      simp [List.all_cons, Bool.and_comm]

/-- Counting survivors with a candidate store hash: they map injectively
into the kept (first max_root_blobs) slice of the sorted candidates. -/
theorem count_bound_aux (rows2 rowsAll : List Blob) (cands : List RootBlob)
    (key : RootBlob → Nat)
    (hrows : rows2 = rowsAll.filter
      (fun r => ((sortByKey key cands).drop maxRootBlobs).all
        (fun rb => r.storeHash != rb.blob.storeHash)))
    (hdist : rowsAll.Pairwise (fun a b => a.storeHash ≠ b.storeHash)) :
    (rows2.filter (fun r => cands.any (fun c => c.blob.storeHash == r.storeHash))).length
      ≤ maxRootBlobs := by
  have hmapmem : ∀ r ∈ rows2.filter
      (fun r => cands.any (fun c => c.blob.storeHash == r.storeHash)),
      r.storeHash ∈ ((sortByKey key cands).take maxRootBlobs).map
        (fun rb => rb.blob.storeHash) := by
    intro r hr
    rcases List.mem_filter.mp hr with ⟨hr2, hany⟩
    rcases List.any_eq_true.mp hany with ⟨c, hc, hceq⟩
    have hceq2 : c.blob.storeHash = r.storeHash := by simpa using hceq
    have hcs : c ∈ sortByKey key cands := mem_sortByKey_of_mem key c cands hc
    rw [← List.take_append_drop maxRootBlobs (sortByKey key cands)] at hcs
    rcases List.mem_append.mp hcs with hkept | hevict
    · rw [← hceq2]
      exact List.mem_map_of_mem _ hkept
    · exfalso
      rw [hrows] at hr2
      rcases List.mem_filter.mp hr2 with ⟨_, hall⟩
      have := List.all_eq_true.mp hall c hevict
      rw [hceq2] at this
      simp at this
  have hsub : ((rows2.filter
      (fun r => cands.any (fun c => c.blob.storeHash == r.storeHash))).map
        (fun b => b.storeHash)) ⊆
      ((sortByKey key cands).take maxRootBlobs).map (fun rb => rb.blob.storeHash) := by
    intro x hx
    rcases List.mem_map.mp hx with ⟨r, hr, hrx⟩
    rw [← hrx]
    exact hmapmem r hr
  have hpair : (rows2.filter
      (fun r => cands.any (fun c => c.blob.storeHash == r.storeHash))).Pairwise
      (fun a b => a.storeHash ≠ b.storeHash) := by
    have h1 : rows2.Pairwise (fun a b => a.storeHash ≠ b.storeHash) := by
      rw [hrows]
      exact List.Pairwise.sublist (List.filter_sublist _) hdist
    exact List.Pairwise.sublist (List.filter_sublist _) h1
  have hnodup : ((rows2.filter
      (fun r => cands.any (fun c => c.blob.storeHash == r.storeHash))).map
        (fun b => b.storeHash)).Nodup :=
    List.Pairwise.map _ (fun a b h => h) hpair
  have hlen := (List.subperm_of_subset hnodup hsub).length_le
  rw [List.length_map, List.length_map] at hlen
  have htake : ((sortByKey key cands).take maxRootBlobs).length ≤ maxRootBlobs := by
    rw [List.length_take]
    omega
  omega

/-! ## Claim theorems -/

/-- Claim C10: while the shared race counter is zero, neither the sync
write nor the async poll_write of the race wrapper ever returns the race
cancellation: every buffer of any length is forwarded, and a whole write
sequence run against a zero counter (a trial with no finished competitor)
completes with all its bytes written, so it can never be raced out. -/
theorem C10_zero_counter_never_raced (size b : Nat) (bufs : List Nat) :
    racePollWrite 0 size b = .ok b (size + b) ∧
    raceWrite 0 size b = .ok b (size + b) ∧
    runPollWrites 0 size bufs = .completed (size + bufs.sum) := by
  refine ⟨by simp [racePollWrite], by simp [raceWrite], ?_⟩
  induction bufs generalizing size with
  | nil => simp [runPollWrites]
  | cons x xs ih =>
    simp only [runPollWrites, racePollWrite]
    simp [ih (size + x), Nat.add_assoc]

/-- Claim C6, counterexample: a delta trial writes through the async
poll_write path; with the shared counter at 4 and nothing written yet, a
4-byte buffer would not exceed the counter, yet the call returns the race
cancellation, and only after the buffer has been written (the destination
holds 4 bytes). -/
theorem C6_counterexample :
    racePollWrite 4 0 4 = .raceErr 4 ∧ ¬ (0 + 4 > 4) := by
  exact ⟨rfl, by omega⟩

/-- Claim C6, amended: on the trial write path (poll_write) the chunk is
forwarded first and the call is refused afterwards, exactly when the
positive counter is at most the bytes written including this chunk; in
consequence a trial destination started empty never reaches the counter
plus one chunk: on a race cancellation its final size stays below
race + largest chunk. -/
theorem C6_race_refusal_post_write (race size b : Nat) (bufs : List Nat) (f : Nat)
    (hpos : 0 < race) (hrun : runPollWrites race 0 bufs = .raced f) :
    (racePollWrite race size b = .raceErr (size + b) ↔ race ≤ size + b) ∧
    f + 1 ≤ race + listMax bufs := by
  constructor
  · constructor
    · intro h
      by_cases hc : race = 0 ∨ size + b < race
      · simp [racePollWrite, hc] at h
      · omega
    · intro h
      have hc : ¬ (race = 0 ∨ size + b < race) := by omega
      simp [racePollWrite, hc]
  · have main : ∀ (bs : List Nat) (s : Nat), s < race →
        runPollWrites race s bs = .raced f → f + 1 ≤ race + listMax bs := by
      intro bs
      induction bs with
      | nil => intro s _ hc; cases hc
      | cons x xs ih =>
        intro s hs hc
        by_cases hok : race = 0 ∨ s + x < race
        · simp only [runPollWrites, racePollWrite, if_pos hok] at hc
          have := ih (s + x) (by omega) hc
          have hle : listMax xs ≤ listMax (x :: xs) := by
            simp [listMax, Nat.le_max_right]
          omega
        · simp only [runPollWrites, racePollWrite, if_neg hok] at hc
          cases hc
          have : x ≤ listMax (x :: xs) := by simp [listMax, Nat.le_max_left]
          omega
    exact main bufs 0 hpos hrun

/-- Claim C6 witness: the refusal condition at race counter 4 with a 4-byte
first buffer, and the bound for the raced-out run of chunks 2, 2 against
counter 3, which ends with 4 bytes written. -/
theorem C6_witness :
    (racePollWrite 3 0 4 = .raceErr (0 + 4) ↔ 3 ≤ 0 + 4) ∧
    4 + 1 ≤ 3 + listMax [2, 2] :=
  C6_race_refusal_post_write 3 0 4 [2, 2] 4 (by omega) (by rfl)

/-- Claim C3: get on a filename with no matching row prints a message to
stderr and returns Ok(()) (the okUnknown outcome), instead of failing with
NotFound as the spec requires; this theorem pins the code behaviour. -/
theorem C3_unknown_filename_returns_ok (st : St) (fn : String) (dry : Bool)
    (dec : Nat → WriteMetadata) (h : st.db.by_filename fn = []) :
    get st fn dry dec = .okUnknown := by
  unfold get
  rw [h]
  rfl

/-- Claim C3 witness: get of a missing filename on the empty store returns
the Ok outcome. -/
theorem C3_witness :
    get emptySt "missing.zip" false (fun _ => ⟨0, "x"⟩) = .okUnknown :=
  C3_unknown_filename_returns_ok emptySt "missing.zip" false (fun _ => ⟨0, "x"⟩) rfl

/-- Claim C2: when the input content is new, roots exist, and every delta
trial races out, push does not fall back to keeping the full blob and
returning Ok: it panics via expect with the message no blobs, with the
full blob row sitting in the table at the moment of the panic. -/
theorem C2_all_raced_panics (st : St) (fn : String) (meta : WriteMetadata)
    (trials : Nat → TrialResult)
    (hfresh : st.db.rows.any (fun r => r.storeHash == meta.digest) = false)
    (hroots : st.db.roots.isEmpty = false)
    (hraced : ∀ j, j < st.db.roots.length → trials j = .raced) :
    ∃ st1, push st fn meta trials = .panicked "no blobs" st1 ∧
      ∃ r, r ∈ st1.db.rows ∧ r.storeHash = meta.digest ∧ r.parentHash = none := by
  have hins : st.db.insert (meta.blob fn) =
      ({ rows := st.db.rows ++ [{ meta.blob fn with id := st.db.nextId }],
         nextId := st.db.nextId + 1 }, true) := by
    simp only [Db.insert, WriteMetadata.blob]
    rw [hfresh]
    simp
  have herr : ∀ j, j < st.db.roots.length → (trials j).isErr = false := by
    intro j hj
    rw [hraced j hj]
    rfl
  have hanyerr : (List.range st.db.roots.length).any (fun i => (trials i).isErr) = false := by
    simp only [List.any_eq_false]
    intro j hj
    rw [herr j (List.mem_range.mp hj)]
    simp
  have hpairs : trialPairs (meta.blob fn) trials st.db.roots 0 = [] :=
    trialPairs_all_raced _ _ _ 0 (fun j hj => by simpa using hraced j hj)
  refine ⟨⟨(st.db.insert (meta.blob fn)).1, insertObj st.objects meta.digest⟩, ?_, ?_⟩
  · simp only [push, hins, Bool.not_true, Bool.false_eq_true, if_false]
    rw [if_neg (by rw [hroots]; simp), if_neg (by rw [hanyerr]; simp), hpairs]
    rfl
  · refine ⟨{ meta.blob fn with id := st.db.nextId }, ?_, rfl, rfl⟩
    rw [hins]
    exact List.mem_append_right _ (by simp)

/-- Claim C2 witness: pushing a new version against the genesis-only store
with its only trial racing out panics with no blobs while the full row of
the input is present in the table. -/
theorem C2_witness :
    ∃ st1, push st1root "v2" ⟨10, "h2"⟩ (fun _ => .raced) = .panicked "no blobs" st1 ∧
      ∃ r, r ∈ st1.db.rows ∧ r.storeHash = "h2" ∧ r.parentHash = none :=
  C2_all_raced_panics st1root "v2" ⟨10, "h2"⟩ (fun _ => .raced)
    (by decide) (by decide) (fun j _ => rfl)

/-- Claim C5: db::insert with a store hash already in the table returns
false and leaves the table unchanged, and a push whose canonicalized
content is already stored (its store hash has a row and its object file
exists) returns Ok with the state — index and object store — unchanged. -/
theorem C5_push_idempotent (st : St) (fn : String) (meta : WriteMetadata)
    (trials : Nat → TrialResult) (b : Blob)
    (hmem : st.db.rows.any (fun r => r.storeHash == meta.digest) = true)
    (hb : b.storeHash = meta.digest)
    (hobj : meta.digest ∈ st.objects) :
    st.db.insert b = (st.db, false) ∧ push st fn meta trials = .ok st := by
  constructor
  · unfold Db.insert
    rw [hb, hmem]
    rfl

  · have hins : st.db.insert (meta.blob fn) = (st.db, false) := by
      simp only [Db.insert, WriteMetadata.blob]
      rw [hmem]
      rfl
    have hio : insertObj st.objects (meta.blob fn).storeHash = st.objects := by
      unfold insertObj
      rw [if_pos (by exact hobj)]
    simp only [push, hins, hio]
    rfl

/-- Claim C5 witness: pushing content whose canonical digest hg is already
stored in the genesis-only state is a complete no-op returning Ok. -/
theorem C5_witness :
    st1root.db.insert genesisBlob = (st1root.db, false) ∧
    push st1root "v1-copy" ⟨10, "hg"⟩ (fun _ => .raced) = .ok st1root :=
  C5_push_idempotent st1root "v1-copy" ⟨10, "hg"⟩ (fun _ => .raced) genesisBlob
    (by decide) rfl (by decide)

/-- Claim C1, counterexample: a push of v2 against the genesis-only store
whose single trial finishes returns Ok, and the full blob inserted at
[FULL_INSERTED] (row id 2, store hash h2) is still a row of the final
table and its object file is still in the store: the winner handling does
not delete it. -/
theorem C1_counterexample :
    c1Res.isOk = true ∧ c1FullRow ∈ c1Res.state.db.rows ∧
      "h2" ∈ c1Res.state.objects := by
  refine ⟨by decide, by decide, by decide⟩

/-- Claim C1, amended: after the winning delta is written into the object
store and its row inserted by update_blob, the full blob inserted at
[FULL_INSERTED] is retained — its row and its object file both survive
update_blob (it stays behind as a root alias of the delta, and only a
later cleanup may evict it under the root-eviction policy). -/
theorem C1_full_blob_retained (st : St) (full delta : Blob)
    (hrow : full ∈ st.db.rows) (hobj : full.storeHash ∈ st.objects) :
    full ∈ (update_blob st delta).1.db.rows ∧
      full.storeHash ∈ (update_blob st delta).1.objects := by
  unfold update_blob
  exact ⟨mem_db_insert st.db delta full hrow, mem_insertObj _ _ _ hobj⟩

/-- Claim C1 witness: inserting the winning delta of v2 into the state that
holds the v2 full blob keeps the full row and its object. -/
theorem C1_witness :
    c1FullRow ∈ (update_blob ⟨⟨[genesisBlob, c1FullRow], 3⟩, ["hg", "h2"]⟩ c4Delta).1.db.rows ∧
      c1FullRow.storeHash ∈
        (update_blob ⟨⟨[genesisBlob, c1FullRow], 3⟩, ["hg", "h2"]⟩ c4Delta).1.objects :=
  C1_full_blob_retained ⟨⟨[genesisBlob, c1FullRow], 3⟩, ["hg", "h2"]⟩ c1FullRow c4Delta
    (by decide) (by decide)

/-- Claim C4, counterexample: a non-dry-run get whose decode step hands
back the right digest but the wrong length (999 instead of the recorded
content_size 10) succeeds and produces the output file: the length is not
asserted, so a length mismatch alone is not fatal. -/
theorem C4_counterexample :
    get c4St "v2" false c4Dec = .okDone (some ⟨999, "h2"⟩) ∧
      (c4Dec 0).size ≠ c4Delta.contentSize := by
  exact ⟨by decide, by decide⟩

/-- Claim C4, amended: in every non-dry-run get, each decode step asserts
only that the decoded digest equals the delta blob's recorded
content_hash; a digest mismatch is fatal (assert panic) at the first
mismatching step, before the output file is produced, and a successful
get implies every step's digest matched — but the decoded length is never
compared against content_size. -/
theorem C4_digest_only_assert (st : St) (fn : String) (dec : Nat → WriteMetadata)
    (path : List Blob) (hpath : decodePath st fn = some path) :
    (∀ last, get st fn false dec = .okDone last →
      ∀ k b, path.get? k = some b → (dec k).digest = b.contentHash) ∧
    (∀ i, get st fn false dec = .panicAssert i →
      ∃ b, path.get? i = some b ∧ (dec i).digest ≠ b.contentHash ∧
        ∀ k b2, k < i → path.get? k = some b2 → (dec k).digest = b2.contentHash) := by
  unfold decodePath at hpath
  cases hlast : (st.db.by_filename fn).getLast? with
  | none => simp only [hlast] at hpath; cases hpath
  | some b0 =>
    simp only [hlast] at hpath
    cases hwalk : walkPath st.db (st.db.rows.length + 1) b0 [] with
    | missingParent => simp only [hwalk] at hpath; cases hpath
    | fuelOut => simp only [hwalk] at hpath; cases hpath
    | found visited root =>
      simp only [hwalk] at hpath
      have hp : path = visited.reverse := by cases hpath; rfl
      subst hp
      constructor
      · intro last hget k b hk
        simp only [get, hlast, hwalk, Bool.false_eq_true, if_false] at hget
        cases hdl : decodeLoop dec 0 none visited.reverse with
        | done l2 =>
          have := decodeLoop_done dec visited.reverse 0 none l2 hdl k b hk
          simpa using this
        | assertFail i => rw [hdl] at hget; cases hget
      · intro i hget
        simp only [get, hlast, hwalk, Bool.false_eq_true, if_false] at hget
        cases hdl : decodeLoop dec 0 none visited.reverse with
        | done l2 => rw [hdl] at hget; cases hget
        | assertFail i2 =>
          rw [hdl] at hget
          cases hget
          rcases decodeLoop_assertFail dec visited.reverse 0 none i hdl with
            ⟨k, b, hik, hgetk, hne, hprev⟩
          have hk0 : i = k := by omega
          subst hk0
          refine ⟨b, hgetk, hne, ?_⟩
          intro k2 b2 hk2 hget2
          simpa using hprev k2 b2 hk2 hget2

/-- Claim C4 witness: on the two-blob store, a get whose decode step hands
back the matching digest succeeds, and the theorem yields that the step-0
digest equals the recorded content hash of the delta. -/
theorem C4_witness : (c4Dec 0).digest = c4Delta.contentHash :=
  (C4_digest_only_assert c4St "v2" c4Dec [c4Delta] (by decide)).1
    (some ⟨999, "h2"⟩) (by decide) 0 c4Delta (by decide)

/-- Claim C7: the winner that push takes — the head of the stable
sort_by_key of the finished trials by store_size, in db::roots order — is
a completed trial of minimal store_size, and among the completed trials of
that minimal size it is the one whose source root has the lowest id
(roots are enumerated in ascending id order). -/
theorem C7_winner_smallest_then_lowest_root (input : Blob) (trials : Nat → TrialResult)
    (rootBlobs : List Blob) (w : Blob)
    (hpw : rootBlobs.Pairwise (fun a b => a.id < b.id))
    (hw : (sortByKey (fun b : Blob => b.storeSize)
        ((trialPairs input trials rootBlobs 0).map Prod.snd)).head? = some w) :
    ∃ p, p ∈ trialPairs input trials rootBlobs 0 ∧ Prod.snd p = w ∧
      (∀ q ∈ trialPairs input trials rootBlobs 0, w.storeSize ≤ (Prod.snd q).storeSize) ∧
      (∀ q ∈ trialPairs input trials rootBlobs 0,
        (Prod.snd q).storeSize = w.storeSize → (Prod.fst p).id ≤ (Prod.fst q).id) := by
  rcases sortByKey_head_firstMin _ _ w hw with ⟨l1, l2, hsplit, hmin, hstrict⟩
  rcases map_snd_split _ _ _ _ hsplit with ⟨pl1, p, pl2, hps, hp2, hm1, hm2⟩
  have hpwp : (trialPairs input trials rootBlobs 0).Pairwise
      (fun a b => (Prod.fst a).id < (Prod.fst b).id) := by
    have hsub := trialPairs_fst_sublist input trials rootBlobs 0
    have h1 : (List.map Prod.fst (trialPairs input trials rootBlobs 0)).Pairwise
        (fun a b : Blob => a.id < b.id) := List.Pairwise.sublist hsub hpw
    exact List.Pairwise.of_map Prod.fst (fun a b hab => hab) h1
  refine ⟨p, by simp [hps], hp2, ?_, ?_⟩
  · intro q hq
    have hqm : Prod.snd q ∈ (trialPairs input trials rootBlobs 0).map Prod.snd :=
      List.mem_map_of_mem _ hq
    exact hmin (Prod.snd q) hqm
  · intro q hq hqsize
    rw [hps] at hq hpwp
    rcases List.mem_append.mp hq with hq1 | hq2
    · exfalso
      have hqs : Prod.snd q ∈ pl1.map Prod.snd := List.mem_map_of_mem _ hq1
      rw [hm1] at hqs
      have := hstrict (Prod.snd q) hqs
      omega
    · rcases List.mem_cons.mp hq2 with rfl | hq3
      · exact Nat.le_refl _
      · rcases List.pairwise_append.mp hpwp with ⟨_, htail, _⟩
        exact Nat.le_of_lt ((List.pairwise_cons.mp htail).1 q hq3)

/-- Claim C7 witness: with two roots of ids 1 and 2 and both trials
finishing with 5-byte deltas, the theorem applies: the winner is the delta
of the id-1 root, of minimal size, and on the tie its source id 1 is the
lowest. -/
theorem C7_witness :
    ∃ p, p ∈ trialPairs (WriteMetadata.blob ⟨10, "h3"⟩ "v3") (fun _ => .done ⟨5, "dd"⟩)
        [genesisBlob, c1FullRow] 0 ∧
      Prod.snd p = mkDeltaBlob (WriteMetadata.blob ⟨10, "h3"⟩ "v3") genesisBlob ⟨5, "dd"⟩ ∧
      (∀ q ∈ trialPairs (WriteMetadata.blob ⟨10, "h3"⟩ "v3") (fun _ => .done ⟨5, "dd"⟩)
          [genesisBlob, c1FullRow] 0,
        (mkDeltaBlob (WriteMetadata.blob ⟨10, "h3"⟩ "v3") genesisBlob ⟨5, "dd"⟩).storeSize ≤
          (Prod.snd q).storeSize) ∧
      (∀ q ∈ trialPairs (WriteMetadata.blob ⟨10, "h3"⟩ "v3") (fun _ => .done ⟨5, "dd"⟩)
          [genesisBlob, c1FullRow] 0,
        (Prod.snd q).storeSize =
            (mkDeltaBlob (WriteMetadata.blob ⟨10, "h3"⟩ "v3") genesisBlob ⟨5, "dd"⟩).storeSize →
          (Prod.fst p).id ≤ (Prod.fst q).id) :=
  C7_winner_smallest_then_lowest_root (WriteMetadata.blob ⟨10, "h3"⟩ "v3")
    (fun _ => .done ⟨5, "dd"⟩) [genesisBlob, c1FullRow]
    (mkDeltaBlob (WriteMetadata.blob ⟨10, "h3"⟩ "v3") genesisBlob ⟨5, "dd"⟩)
    (by decide) (by decide)

/-- Claim C8, counterexample: a store of eight pairwise distinct roots,
none of which has an alias — a state satisfying the data-model invariants
I1 to I6 — passes cleanup unchanged: eight roots remain, more than
MAX_ROOTS + 2 = 7, because cleanup only ever evicts roots that have an
alias and protects neither a latest root nor a numeric bound. -/
theorem C8_counterexample :
    cleanup c8St = .ok c8St ∧ c8St.db.roots.length = 8 ∧ maxRootBlobs + 2 < 8 ∧
      (c8St.db.rows.any (fun r => r.is_genesis && r.is_root)) = true := by
  exact ⟨by decide, by decide, by decide, by decide⟩

/-- Claim C8, amended: a successful cleanup only removes rows, evicts only
roots listed by root_candidates (roots that have an alias) beyond the
max_root_blobs best-scored ones, and keeps every row that matches no
candidate — in particular the genesis whenever it has no alias. Hence at
most max_root_blobs candidate roots survive, and the root count after
cleanup is bounded by the number of alias-free roots plus max_root_blobs,
not by MAX_ROOTS + 2; there is no protection for the latest root. -/
theorem C8_cleanup_eviction_shape (st st2 : St)
    (hok : cleanup st = .ok st2)
    (hdist : st.db.rows.Pairwise (fun a b => a.storeHash ≠ b.storeHash)) :
    (∀ r ∈ st.db.rows,
      (∀ c ∈ root_candidates st.db.rows (fromBlobs st.db.rows),
        c.blob.storeHash ≠ r.storeHash) → r ∈ st2.db.rows) ∧
    (∀ r ∈ st2.db.rows, r ∈ st.db.rows) ∧
    (st2.db.rows.filter (fun r =>
        (root_candidates st.db.rows (fromBlobs st.db.rows)).any
          (fun c => c.blob.storeHash == r.storeHash))).length ≤ maxRootBlobs := by
  simp only [cleanup] at hok
  have hrows := cleanupGo_ok_rows _ _ _ hok
  refine ⟨?_, ?_, ?_⟩
  · intro r hr hno
    rw [hrows]
    rw [List.mem_filter]
    refine ⟨hr, ?_⟩
    rw [List.all_eq_true]
    intro rb hrb
    have hrbc : rb ∈ root_candidates st.db.rows (fromBlobs st.db.rows) :=
      mem_of_mem_sortByKey _ _ _ (List.drop_subset _ _ hrb)
    have hne := hno rb hrbc
    simp only [bne_iff_ne, ne_eq, decide_not]
    simpa using Ne.symm hne
  · intro r hr
    rw [hrows] at hr
    exact List.mem_of_mem_filter hr
  · exact count_bound_aux st2.db.rows st.db.rows
      (root_candidates st.db.rows (fromBlobs st.db.rows))
      (fun rb => U64MAX - rb.score) hrows hdist

/-- Claim C8 witness: on the genesis-plus-one-delta store (whose only root,
the genesis, has no alias), cleanup succeeds unchanged and the theorem
yields retention of all rows and the candidate bound. -/
theorem C8_witness :
    (∀ r ∈ c4St.db.rows,
      (∀ c ∈ root_candidates c4St.db.rows (fromBlobs c4St.db.rows),
        c.blob.storeHash ≠ r.storeHash) → r ∈ c4St.db.rows) ∧
    (∀ r ∈ c4St.db.rows, r ∈ c4St.db.rows) ∧
    (c4St.db.rows.filter (fun r =>
        (root_candidates c4St.db.rows (fromBlobs c4St.db.rows)).any
          (fun c => c.blob.storeHash == r.storeHash))).length ≤ maxRootBlobs :=
  C8_cleanup_eviction_shape c4St c4St (by decide) (by decide)

/-- Claim C9: invariant I3 — every root row stores exactly its content — is
preserved by push through all its branches (full insert, delta-winner
insert, cleanup eviction), because the full blob built by
WriteMetadata::blob has store hash and size equal to content hash and
size, while the delta blob built by append_delta has a parent hash set,
content hash and size taken from the input and store hash and size from
the patch bytes. -/
theorem C9_root_blob_invariant (st : St) (fn : String) (meta : WriteMetadata)
    (trials : Nat → TrialResult) (input src : Blob) (m : WriteMetadata)
    (h : I3 st) :
    I3 (push st fn meta trials).state ∧
    (mkDeltaBlob input src m).parentHash = some src.contentHash ∧
    (mkDeltaBlob input src m).contentHash = input.contentHash ∧
    (mkDeltaBlob input src m).contentSize = input.contentSize ∧
    (mkDeltaBlob input src m).storeHash = m.digest ∧
    (mkDeltaBlob input src m).storeSize = m.size := by
  refine ⟨?_, rfl, rfl, rfl, rfl, rfl⟩
  have hfull : (meta.blob fn).parentHash = none →
      (meta.blob fn).storeHash = (meta.blob fn).contentHash ∧
      (meta.blob fn).storeSize = (meta.blob fn).contentSize := fun _ => ⟨rfl, rfl⟩
  have h1 : I3 ⟨(st.db.insert (meta.blob fn)).1,
      insertObj st.objects (meta.blob fn).storeHash⟩ :=
    I3_db_insert st.db (meta.blob fn) st.objects _ hfull h
  simp only [push]
  split
  · exact h1
  · split
    · exact h1
    · split
      · exact h1
      · split
        · exact h1
        · rename_i link hlink
          have hmem : link ∈ (trialPairs (meta.blob fn) trials st.db.roots 0).map Prod.snd :=
            mem_of_mem_sortByKey _ _ _ (List.mem_of_mem_head? hlink)
          have hdelta : link.parentHash.isSome := by
            rcases List.mem_map.mp hmem with ⟨p, hp, hlink2⟩
            rcases trialPairs_snd (meta.blob fn) trials _ _ p hp with ⟨m2, hm2⟩
            rw [← hlink2, hm2]
            rfl
          have h2 : I3 (update_blob ⟨(st.db.insert (meta.blob fn)).1,
              insertObj st.objects (meta.blob fn).storeHash⟩ link).1 := by
            apply I3_db_insert _ link _ _ _ h1
            intro hnone
            rw [hnone] at hdelta
            cases hdelta
          have h3 := I3_cleanup _ h2
          split
          · rename_i st3 hcl
            rw [hcl] at h3
            exact h3
          · rename_i stE hcl
            rw [hcl] at h3
            exact h3

/-- Claim C9 witness: I3 holds after pushing v2 with a finishing delta
trial onto the genesis-only store, and the delta blob of that trial has
the claimed field layout. -/
theorem C9_witness :
    I3 (push st1root "v2" ⟨10, "h2"⟩ (fun _ => .done ⟨3, "d2"⟩)).state ∧
    (mkDeltaBlob (WriteMetadata.blob ⟨10, "h2"⟩ "v2") genesisBlob ⟨3, "d2"⟩).parentHash =
      some genesisBlob.contentHash ∧
    (mkDeltaBlob (WriteMetadata.blob ⟨10, "h2"⟩ "v2") genesisBlob ⟨3, "d2"⟩).contentHash =
      (WriteMetadata.blob ⟨10, "h2"⟩ "v2").contentHash ∧
    (mkDeltaBlob (WriteMetadata.blob ⟨10, "h2"⟩ "v2") genesisBlob ⟨3, "d2"⟩).contentSize =
      (WriteMetadata.blob ⟨10, "h2"⟩ "v2").contentSize ∧
    (mkDeltaBlob (WriteMetadata.blob ⟨10, "h2"⟩ "v2") genesisBlob ⟨3, "d2"⟩).storeHash =
      (⟨3, "d2"⟩ : WriteMetadata).digest ∧
    (mkDeltaBlob (WriteMetadata.blob ⟨10, "h2"⟩ "v2") genesisBlob ⟨3, "d2"⟩).storeSize =
      (⟨3, "d2"⟩ : WriteMetadata).size :=
  C9_root_blob_invariant st1root "v2" ⟨10, "h2"⟩ (fun _ => .done ⟨3, "d2"⟩)
    (WriteMetadata.blob ⟨10, "h2"⟩ "v2") genesisBlob ⟨3, "d2"⟩
    (by intro r hr hroot; fin_cases hr; exact ⟨rfl, rfl⟩)

end Increstore
